import Mathlib

/-!
Verification of the `mimir` crate (`src/crates/mimir/src/lib.rs`): a
heterogeneous, serializable cache with three partitions,

  pub struct Cache \x7b
      deser: HashMap<String, t::Box<dyn t::Any>>,
      keys: HashMap<TypeId, String>,
      items: HashMap<TypeId, t::Box<dyn t::Any>>,
  \x7d

together with its operations `extract_deser`, `immut_extract_deser`,
`insert`, `get`, `get_mut`, `take`, `Serialize for Cache` and
`Deserialize for Cache`.

Modelling choices (shallow embedding):
* A `HashMap` is modelled as an association list with HashMap semantics:
  `lookupKV` finds the (unique) entry for a key, `insertKV` replaces the
  entry in place or appends a fresh one, `eraseKV` removes the entry.
* A `t::Box<dyn t::Any>` value is a dependent pair `Blob`: a runtime type
  identity together with a strongly typed sub-container of that type
  (`serde_traitobject` reconstructs the concrete value on deserialization,
  so a raw blob is a typed sub-container of some, possibly different,
  type).  `Blob.downcast` is the checked downcast of `dyn Any`.
* The pool of admissible item types (the `Item` trait: `Key`, `TypeKey`,
  `fn key`, `fn type_key`) is a parameter `ItemUniverse`.
* `serde` encoding of a sub-container is treated as faithful (the blob is
  the document value); a panic (`Option::unwrap` on `None`) is modelled by
  the operation returning `none`.
-/

namespace Mimir

/-- Lookup in a HashMap modelled as an association list (`HashMap::get`). -/
def lookupKV {α β : Type} [DecidableEq α] : List (α × β) → α → Option β
  | [], _ => none
  | p :: t, k => if p.1 = k then some p.2 else lookupKV t k

/-- Insertion in a HashMap modelled as an association list
(`HashMap::insert`): replace the entry in place, or append a new one. -/
def insertKV {α β : Type} [DecidableEq α] : List (α × β) → α → β → List (α × β)
  | [], k, v => [(k, v)]
  | p :: t, k, v => if p.1 = k then (k, v) :: t else p :: insertKV t k v

/-- Removal from a HashMap modelled as an association list
(`HashMap::remove`, dropping the returned value). -/
def eraseKV {α β : Type} [DecidableEq α] : List (α × β) → α → List (α × β)
  | [], _ => []
  | p :: t, k => if p.1 = k then eraseKV t k else p :: eraseKV t k

/-- `List.mapM` over `Option`, written out so it unfolds structurally:
used to model a serialization loop whose body can fault (panic). -/
def mapOption {α γ : Type} (f : α → Option γ) : List α → Option (List γ)
  | [] => some []
  | a :: t =>
    match f a, mapOption f t with
    | some b, some r => some (b :: r)
    | _, _ => none

/-- The pool of admissible item types: for each runtime type identity
(`TypeId`) a key type, an item type, the `Item` trait data
(`type_key().to_string()` as `tag`, and `fn key(&self)` as `key`).
Equality of type identities (`TypeId` comparison) and of keys
(`Key: Hash + Eq`) is decidable. -/
structure ItemUniverse where
  TId : Type
  KeyTy : TId → Type
  ItemTy : TId → Type
  tag : TId → String
  key : (i : TId) → ItemTy i → KeyTy i
  deceqT : DecidableEq TId
  deceqK : ∀ i, DecidableEq (KeyTy i)

attribute [instance] ItemUniverse.deceqT ItemUniverse.deceqK

variable {U : ItemUniverse}

/-- `InnerHashMap<T> = HashMap<T::Key, Box<T>>`: the strongly typed
sub-container for one item type. -/
def Inner (U : ItemUniverse) (i : U.TId) : Type :=
  List (U.KeyTy i × U.ItemTy i)

/-- A `t::Box<dyn t::Any>`: a value whose runtime type identity travels
with it.  Both partitions of the cache store these; a raw entry obtained
from `serde_traitobject` deserialization carries the concrete
sub-container it was serialized from, whose type identity need not match
the tag it is filed under. -/
def Blob (U : ItemUniverse) : Type :=
  (i : U.TId) × Inner U i

/-- The checked downcast `as_any().downcast_ref::<InnerHashMap<T>>()`
(or its `_mut` form): succeeds exactly when the blob's runtime type
identity is the requested one. -/
def Blob.downcast (b : Blob U) (j : U.TId) : Option (Inner U j) :=
  if h : b.1 = j then some (h ▸ b.2) else none

/-- The cache: raw partition `deser`, tag registry `keys`, typed
partition `items`, exactly the three fields of `struct Cache`. -/
structure Cache (U : ItemUniverse) where
  deser : List (String × Blob U)
  keys : List (U.TId × String)
  items : List (U.TId × Blob U)

/-- `Cache::new`. -/
def Cache.new (U : ItemUniverse) : Cache U :=
  { deser := [], keys := [], items := [] }

/-- `Cache::extract_deser::<T>`: if the raw partition has an entry under
`tag(T)`, remove it and file it in the typed partition under
`identity(T)`.  Note that the source does not touch `keys` here. -/
def Cache.extract_deser (c : Cache U) (i : U.TId) : Cache U :=
  match lookupKV c.deser (U.tag i) with
  | some v => { c with deser := eraseKV c.deser (U.tag i), items := insertKV c.items i v }
  | none => c

/-- `Cache::immut_extract_deser::<T>`: non-mutating lookup of the raw
entry under `tag(T)`. -/
def Cache.immut_extract_deser (c : Cache U) (i : U.TId) : Option (Blob U) :=
  lookupKV c.deser (U.tag i)

/-- `Cache::insert::<T>`: promote, record the tag in the registry, then
insert the item at its own key into the typed sub-container (created if
absent by `entry(..).or_insert_with(..)`).  The `downcast_mut().unwrap()`
of the source is a panic when the entry under `identity(T)` is not an
`InnerHashMap<T>`; a panic is modelled as `none`. -/
def Cache.insert (c : Cache U) (i : U.TId) (x : U.ItemTy i) : Option (Cache U) :=
  let c1 := c.extract_deser i
  let k := U.key i x
  let c2 := { c1 with keys := insertKV c1.keys i (U.tag i) }
  let entry := (lookupKV c2.items i).getD ⟨i, []⟩
  match Blob.downcast entry i with
  | none => none
  | some m => some { c2 with items := insertKV c2.items i ⟨i, insertKV m k x⟩ }

/-- `Cache::get::<T>` as a state transformer: the result of
`immut_extract_deser().or_else(|| items.get(..)).and_then(downcast_ref)
.and_then(|n| n.get(&key))`, paired with the state after the call.  The
receiver is `&self` and every step is a non-mutating lookup, so the
resulting state is the input state. -/
def Cache.getS (c : Cache U) (i : U.TId) (k : U.KeyTy i) :
    Option (U.ItemTy i) × Cache U :=
  ((((c.immut_extract_deser i).orElse (fun _ => lookupKV c.items i)).bind
      (fun v => v.downcast i)).bind (fun n => lookupKV n k), c)

/-- `Cache::get::<T>`: the value returned by the read. -/
def Cache.get (c : Cache U) (i : U.TId) (k : U.KeyTy i) : Option (U.ItemTy i) :=
  (c.getS i k).1

/-- `Cache::get_mut::<T>`: promote, then hand out the entry at `key` of
the typed sub-container.  Modelled as the value read together with the
state after the call (mutation through the returned reference is the
caller's, not this operation's). -/
def Cache.get_mut (c : Cache U) (i : U.TId) (k : U.KeyTy i) :
    Option (U.ItemTy i) × Cache U :=
  let c1 := c.extract_deser i
  (((lookupKV c1.items i).bind (fun v => v.downcast i)).bind
      (fun n => lookupKV n k), c1)

/-- `Cache::take::<T>`: promote, then remove and return the item at
`key` from the typed sub-container. -/
def Cache.take (c : Cache U) (i : U.TId) (k : U.KeyTy i) :
    Option (U.ItemTy i) × Cache U :=
  let c1 := c.extract_deser i
  match (lookupKV c1.items i).bind (fun v => v.downcast i) with
  | none => (none, c1)
  | some m =>
    (lookupKV m k, { c1 with items := insertKV c1.items i ⟨i, eraseKV m k⟩ })

/-- `impl Serialize for Cache`: one document entry per typed-partition
entry, under the tag found in the registry (`self.keys.get(key).unwrap()`
— a panic, modelled as `none`, when the registry has no entry), followed
by every raw entry re-emitted verbatim.  Blob encoding via
`serde_traitobject` is treated as faithful, so the document value is the
blob itself. -/
def Cache.serialize (c : Cache U) : Option (List (String × Blob U)) :=
  (mapOption (fun p => (lookupKV c.keys p.1).map (fun t => (t, p.2))) c.items).map
    (fun l => l ++ c.deser)

/-- `impl Deserialize for Cache` (`CacheVisitor::visit_map`): start from
`Cache::new` and file every document entry into the raw partition. -/
def Cache.deserialize (U : ItemUniverse) (doc : List (String × Blob U)) : Cache U :=
  { Cache.new U with deser := doc.foldl (fun m p => insertKV m p.1 p.2) [] }

/-- A concrete universe with two item types, mirroring the crate's own
doctest (`SomeStruct` under tag `"A"`, `SomeOtherStruct` under tag
`"B"`): type identities are booleans, an item is a `(key, payload)` pair
and `fn key` projects the first component. -/
abbrev U2 : ItemUniverse where
  TId := Bool
  KeyTy := fun _ => Nat
  ItemTy := fun _ => Nat × Nat
  tag := fun i => match i with | true => "A" | false => "B"
  key := fun _ p => p.1
  deceqT := inferInstance
  deceqK := fun _ => inferInstance

/-- A document filing, under type `A`'s tag, a sub-container that was
serialized from type `B` (a tag collision, or a crafted document). -/
def craftedDoc : List (String × Blob U2) :=
  [("A", ⟨false, [(0, (0, 9))]⟩)]

/-- The cache obtained by deserializing `craftedDoc`: its raw entry for
`tag(A)` does not downcast to `A`'s sub-container type. -/
def craftedCache : Cache U2 :=
  Cache.deserialize U2 craftedDoc

/-- A well-formed document holding one item of type `A` under key `0`. -/
def regDoc : List (String × Blob U2) :=
  [("A", ⟨true, [(0, (0, 1))]⟩)]

/-- The cache obtained by deserializing `regDoc`. -/
def regCache : Cache U2 :=
  Cache.deserialize U2 regDoc

/-- `regCache` after `get_mut::<A>(0)`: the raw entry has been promoted
into the typed partition. -/
def promotedCache : Cache U2 :=
  (regCache.get_mut true 0).2

/-- A cache state whose raw partition holds a mismatched blob under
`tag(A)` while the typed partition holds `A`'s own sub-container with an
item at key `0`. -/
def shadowCache : Cache U2 :=
  { deser := [("A", ⟨false, []⟩)],
    keys := [(true, "A")],
    items := [(true, ⟨true, [(0, (0, 7))]⟩)] }

/-- The cache invariant of the specification: for every type, at most
one of the raw entry at `tag(T)` and the typed entry at `identity(T)` is
populated, and the tag registry has an entry at `identity(T)` exactly
when a typed sub-container for `T` exists. -/
def cacheInvariant (c : Cache U) : Prop :=
  (∀ i : U.TId, lookupKV c.deser (U.tag i) = none ∨ lookupKV c.items i = none) ∧
  (∀ i : U.TId, (lookupKV c.keys i).isSome = (lookupKV c.items i).isSome)

/-- Building a cache by a sequence of `insert` calls on `Cache::new`
(`none` if some insert panics). -/
def insertAll (U : ItemUniverse) (l : List ((i : U.TId) × U.ItemTy i)) :
    Option (Cache U) :=
  l.foldl (fun acc p => acc.bind (fun c0 => c0.insert p.1 p.2)) (some (Cache.new U))

/-- The shape of every cache built by `insert` calls on `Cache::new`:
empty raw partition, a typed partition with distinct type identities
whose blobs carry their own type, and a registry entry holding the
type's tag for every typed entry. -/
def WfBuilt (c : Cache U) : Prop :=
  c.deser = [] ∧
  (c.items.map Prod.fst).Nodup ∧
  (∀ p ∈ c.items, (p.2).1 = p.1) ∧
  (∀ p ∈ c.items, lookupKV c.keys p.1 = some (U.tag p.1))

section KVLemmas

variable {α β γ : Type} [DecidableEq α]

theorem lookupKV_insertKV_self (l : List (α × β)) (k : α) (v : β) :
    lookupKV (insertKV l k v) k = some v := by
  induction l with
  | nil => simp [insertKV, lookupKV]
  | cons p t ih =>
    by_cases h : p.1 = k
    · simp [insertKV, h, lookupKV]
    · simp [insertKV, h, lookupKV, ih]

theorem lookupKV_insertKV_ne (l : List (α × β)) {k k' : α} (v : β) (h : k' ≠ k) :
    lookupKV (insertKV l k v) k' = lookupKV l k' := by
  induction l with
  | nil => simp [insertKV, lookupKV, Ne.symm h]
  | cons p t ih =>
    by_cases hp : p.1 = k
    · subst hp
      simp [insertKV, lookupKV, Ne.symm h]
    · simp only [insertKV, if_neg hp, lookupKV]
      by_cases hp' : p.1 = k'
      · simp [hp']
      · simp [hp', ih]

theorem lookupKV_eraseKV_self (l : List (α × β)) (k : α) :
    lookupKV (eraseKV l k) k = none := by
  induction l with
  | nil => simp [eraseKV, lookupKV]
  | cons p t ih =>
    by_cases h : p.1 = k
    · simp [eraseKV, h, ih]
    · simp [eraseKV, h, lookupKV, ih]

theorem lookupKV_eraseKV_ne (l : List (α × β)) {k k' : α} (h : k' ≠ k) :
    lookupKV (eraseKV l k) k' = lookupKV l k' := by
  induction l with
  | nil => simp [eraseKV]
  | cons p t ih =>
    by_cases hp : p.1 = k
    · subst hp
      simp [eraseKV, lookupKV, Ne.symm h, ih]
    · simp only [eraseKV, if_neg hp, lookupKV]
      by_cases hp' : p.1 = k'
      · simp [hp']
      · simp [hp', ih]

theorem eraseKV_of_lookupKV_none {l : List (α × β)} {k : α}
    (h : lookupKV l k = none) : eraseKV l k = l := by
  induction l with
  | nil => rfl
  | cons p t ih =>
    simp only [lookupKV] at h
    by_cases hp : p.1 = k
    · simp [hp] at h
    · simp only [if_neg hp] at h
      simp [eraseKV, hp, ih h]

theorem eraseKV_eraseKV (l : List (α × β)) (k : α) :
    eraseKV (eraseKV l k) k = eraseKV l k :=
  eraseKV_of_lookupKV_none (lookupKV_eraseKV_self l k)

theorem insertKV_of_lookupKV_some {l : List (α × β)} {k : α} {v : β}
    (h : lookupKV l k = some v) : insertKV l k v = l := by
  induction l with
  | nil => simp [lookupKV] at h
  | cons p t ih =>
    simp only [lookupKV] at h
    by_cases hp : p.1 = k
    · simp only [if_pos hp] at h
      obtain ⟨p1, p2⟩ := p
      simp only at hp
      injection h with h
      simp [insertKV, hp, ← h]
    · simp only [if_neg hp] at h
      simp [insertKV, hp, ih h]

theorem insertKV_insertKV (l : List (α × β)) (k : α) (v : β) :
    insertKV (insertKV l k v) k v = insertKV l k v :=
  insertKV_of_lookupKV_some (lookupKV_insertKV_self l k v)

theorem mem_insertKV {l : List (α × β)} {k : α} {v : β} {p : α × β}
    (h : p ∈ insertKV l k v) : p = (k, v) ∨ p ∈ l := by
  induction l with
  | nil => simpa [insertKV] using h
  | cons q t ih =>
    by_cases hq : q.1 = k
    · simp only [insertKV, if_pos hq, List.mem_cons] at h
      rcases h with h | h
      · exact Or.inl h
      · exact Or.inr (List.mem_cons_of_mem _ h)
    · simp only [insertKV, if_neg hq, List.mem_cons] at h
      rcases h with h | h
      · exact Or.inr (by simp [h])
      · rcases ih h with h | h
        · exact Or.inl h
        · exact Or.inr (List.mem_cons_of_mem _ h)

theorem lookupKV_mem {l : List (α × β)} {k : α} {v : β}
    (h : lookupKV l k = some v) : (k, v) ∈ l := by
  induction l with
  | nil => simp [lookupKV] at h
  | cons p t ih =>
    simp only [lookupKV] at h
    by_cases hp : p.1 = k
    · simp only [if_pos hp] at h
      injection h with h
      have hp2 : (k, v) = p := by
        obtain ⟨p1, p2⟩ := p
        simp only at hp h
        simp [hp, h]
      exact List.mem_cons.2 (Or.inl hp2)
    · simp only [if_neg hp] at h
      exact List.mem_cons_of_mem _ (ih h)

theorem lookupKV_none_of_not_mem_keys {l : List (α × β)} {k : α}
    (h : k ∉ l.map Prod.fst) : lookupKV l k = none := by
  induction l with
  | nil => rfl
  | cons p t ih =>
    simp only [List.map_cons, List.mem_cons] at h
    push_neg at h
    simp [lookupKV, Ne.symm h.1, ih h.2]

theorem keys_nodup_insertKV {l : List (α × β)} {k : α} {v : β}
    (h : (l.map Prod.fst).Nodup) : ((insertKV l k v).map Prod.fst).Nodup := by
  induction l with
  | nil => simp [insertKV]
  | cons p t ih =>
    simp only [List.map_cons, List.nodup_cons] at h
    by_cases hp : p.1 = k
    · simp only [insertKV, if_pos hp, List.map_cons, List.nodup_cons]
      exact ⟨hp ▸ h.1, h.2⟩
    · simp only [insertKV, if_neg hp, List.map_cons, List.nodup_cons]
      refine ⟨fun hmem => ?_, ih h.2⟩
      have : ∀ q ∈ insertKV t k v, (q : α × β) = (k, v) ∨ q ∈ t := fun q hq => mem_insertKV hq
      rcases List.mem_map.1 hmem with ⟨q, hq, hq1⟩
      rcases this q hq with h' | h'
      · exact hp (by rw [← hq1, h'])
      · exact h.1 (hq1 ▸ List.mem_map_of_mem Prod.fst h')

theorem lookupKV_foldl_insertKV (l : List (α × β)) (k : α)
    (h : (l.map Prod.fst).Nodup) :
    ∀ m : List (α × β),
      lookupKV (l.foldl (fun acc p => insertKV acc p.1 p.2) m) k =
        match lookupKV l k with
        | some v => some v
        | none => lookupKV m k := by
  induction l with
  | nil => intro m; rfl
  | cons p t ih =>
    intro m
    simp only [List.map_cons, List.nodup_cons] at h
    simp only [List.foldl_cons]
    rw [ih h.2]
    by_cases hp : p.1 = k
    · have ht : lookupKV t k = none :=
        lookupKV_none_of_not_mem_keys (fun hm => h.1 (hp ▸ hm))
      simp [lookupKV, ht, hp, lookupKV_insertKV_self]
    · simp only [lookupKV, if_neg hp]
      cases hl : lookupKV t k with
      | none => simp [lookupKV_insertKV_ne _ _ (fun hh => hp hh.symm)]
      | some v => rfl

theorem lookupKV_map_fst_inj [DecidableEq γ] (f : α → γ)
    (hf : Function.Injective f) (l : List (α × β)) (j : α) :
    lookupKV (l.map (fun p => (f p.1, p.2))) (f j) = lookupKV l j := by
  induction l with
  | nil => rfl
  | cons p t ih =>
    by_cases hp : p.1 = j
    · simp [lookupKV, hp, ih]
    · have : f p.1 ≠ f j := fun hh => hp (hf hh)
      simp [lookupKV, hp, this, ih]

end KVLemmas

theorem mapOption_eq_map {α γ : Type} {l : List α} {f : α → Option γ} {g : α → γ}
    (h : ∀ a ∈ l, f a = some (g a)) : mapOption f l = some (l.map g) := by
  induction l with
  | nil => rfl
  | cons a t ih =>
    have ha := h a (List.mem_cons_self a t)
    have ht := ih (fun b hb => h b (List.mem_cons_of_mem a hb))
    simp [mapOption, ha, ht]


theorem downcast_mk_self (i : U.TId) (m : Inner U i) :
    Blob.downcast ⟨i, m⟩ i = some m := by
  simp [Blob.downcast]

theorem downcast_ne {b : Blob U} {j : U.TId} (h : b.1 ≠ j) :
    b.downcast j = none := by
  simp [Blob.downcast, h]

theorem downcast_eq_some {b : Blob U} {j : U.TId} {m : Inner U j}
    (h : b.downcast j = some m) : b = ⟨j, m⟩ := by
  obtain ⟨bi, bm⟩ := b
  unfold Blob.downcast at h
  by_cases hij : bi = j
  · subst hij
    simp at h
    rw [h]
  · simp [hij] at h

theorem downcast_some_of_fst {b : Blob U} {j : U.TId} (h : b.1 = j) :
    b.downcast j = some (h ▸ b.2) := by
  simp [Blob.downcast, h]

theorem extract_deser_keys (c : Cache U) (i : U.TId) :
    (c.extract_deser i).keys = c.keys := by
  unfold Cache.extract_deser
  cases lookupKV c.deser (U.tag i) <;> rfl

theorem extract_deser_deser (c : Cache U) (i : U.TId) :
    (c.extract_deser i).deser = eraseKV c.deser (U.tag i) := by
  unfold Cache.extract_deser
  cases h : lookupKV c.deser (U.tag i) with
  | none => exact (eraseKV_of_lookupKV_none h).symm
  | some v => rfl

theorem extract_deser_lookup_deser_self (c : Cache U) (i : U.TId) :
    lookupKV (c.extract_deser i).deser (U.tag i) = none := by
  rw [extract_deser_deser]
  exact lookupKV_eraseKV_self _ _

theorem extract_deser_lookup_deser_ne (c : Cache U) (i : U.TId) {t : String}
    (h : t ≠ U.tag i) :
    lookupKV (c.extract_deser i).deser t = lookupKV c.deser t := by
  rw [extract_deser_deser]
  exact lookupKV_eraseKV_ne _ h

theorem extract_deser_lookup_items_ne (c : Cache U) {i j : U.TId} (h : j ≠ i) :
    lookupKV (c.extract_deser i).items j = lookupKV c.items j := by
  unfold Cache.extract_deser
  cases lookupKV c.deser (U.tag i) with
  | none => rfl
  | some v => exact lookupKV_insertKV_ne _ _ h

theorem extract_deser_of_lookup_none {c : Cache U} {i : U.TId}
    (h : lookupKV c.deser (U.tag i) = none) : c.extract_deser i = c := by
  unfold Cache.extract_deser
  rw [h]

theorem extract_deser_extract_deser (c : Cache U) (i : U.TId) :
    (c.extract_deser i).extract_deser i = c.extract_deser i :=
  extract_deser_of_lookup_none (extract_deser_lookup_deser_self c i)

/-- Elimination for a successful `Cache::insert`: expose the promoted
state and the typed sub-container it went through. -/
theorem insert_elim {c : Cache U} {i : U.TId} {x : U.ItemTy i} {c' : Cache U}
    (h : c.insert i x = some c') :
    ∃ m, Blob.downcast ((lookupKV (c.extract_deser i).items i).getD ⟨i, []⟩) i = some m ∧
      c' = { deser := (c.extract_deser i).deser,
             keys := insertKV c.keys i (U.tag i),
             items := insertKV (c.extract_deser i).items i
                        ⟨i, insertKV m (U.key i x) x⟩ } := by
  unfold Cache.insert at h
  simp only [extract_deser_keys] at h
  cases hd : Blob.downcast ((lookupKV (c.extract_deser i).items i).getD ⟨i, []⟩) i with
  | none =>
    rw [hd] at h
    exact absurd h (by simp)
  | some m =>
    rw [hd] at h
    refine ⟨m, rfl, ?_⟩
    injection h with h
    rw [← h]

theorem insert_deser {c : Cache U} {i : U.TId} {x : U.ItemTy i} {c' : Cache U}
    (h : c.insert i x = some c') :
    c'.deser = eraseKV c.deser (U.tag i) := by
  obtain ⟨m, _, hc⟩ := insert_elim h
  rw [hc]
  exact extract_deser_deser c i

theorem insert_lookup_deser_self {c : Cache U} {i : U.TId} {x : U.ItemTy i}
    {c' : Cache U} (h : c.insert i x = some c') :
    lookupKV c'.deser (U.tag i) = none := by
  rw [insert_deser h]
  exact lookupKV_eraseKV_self _ _

theorem insert_lookup_keys_self {c : Cache U} {i : U.TId} {x : U.ItemTy i}
    {c' : Cache U} (h : c.insert i x = some c') :
    lookupKV c'.keys i = some (U.tag i) := by
  obtain ⟨m, _, hc⟩ := insert_elim h
  rw [hc]
  exact lookupKV_insertKV_self _ _ _

theorem insert_lookup_items_self {c : Cache U} {i : U.TId} {x : U.ItemTy i}
    {c' : Cache U} (h : c.insert i x = some c') :
    ∃ m, lookupKV c'.items i = some ⟨i, insertKV m (U.key i x) x⟩ := by
  obtain ⟨m, _, hc⟩ := insert_elim h
  refine ⟨m, ?_⟩
  rw [hc]
  exact lookupKV_insertKV_self _ _ _

/-- A read on a cache whose raw partition has no entry for `tag(T)` goes
to the typed partition. -/
theorem get_of_deser_none {c : Cache U} {i : U.TId} (k : U.KeyTy i)
    (hd : lookupKV c.deser (U.tag i) = none) :
    c.get i k = ((lookupKV c.items i).bind (fun v => v.downcast i)).bind
      (fun n => lookupKV n k) := by
  unfold Cache.get Cache.getS Cache.immut_extract_deser
  rw [hd]
  rfl

/-- A read on a cache whose typed partition holds `T`'s own
sub-container (and whose raw partition has none) is a lookup in that
sub-container. -/
theorem get_typed {c : Cache U} {i : U.TId} {M : Inner U i} (k : U.KeyTy i)
    (hd : lookupKV c.deser (U.tag i) = none)
    (hi : lookupKV c.items i = some ⟨i, M⟩) :
    c.get i k = lookupKV M k := by
  rw [get_of_deser_none k hd, hi]
  simp [downcast_mk_self]

/-- After a successful insert, the inserted item is read back at its own
key. -/
theorem get_key_after_insert {c : Cache U} {i : U.TId} {x : U.ItemTy i}
    {c' : Cache U} (h : c.insert i x = some c') :
    c'.get i (U.key i x) = some x := by
  obtain ⟨m, hm⟩ := insert_lookup_items_self h
  rw [get_typed _ (insert_lookup_deser_self h) hm]
  exact lookupKV_insertKV_self _ _ _

/-- A read on a cache whose raw partition holds a blob under `tag(T)` is
decided entirely by that blob: the typed partition is not consulted
(`Option::or_else` short-circuits). -/
theorem get_of_deser_some {c : Cache U} {i : U.TId} {b : Blob U} (k : U.KeyTy i)
    (hb : lookupKV c.deser (U.tag i) = some b) :
    c.get i k = (b.downcast i).bind (fun n => lookupKV n k) := by
  unfold Cache.get Cache.getS Cache.immut_extract_deser
  rw [hb]
  rfl

/-- Promotion of a raw entry files the blob itself, unchanged, at
`identity(T)`. -/
theorem extract_deser_lookup_items_self_of_some {c : Cache U} {i : U.TId}
    {b : Blob U} (hb : lookupKV c.deser (U.tag i) = some b) :
    lookupKV (c.extract_deser i).items i = some b := by
  unfold Cache.extract_deser
  rw [hb]
  exact lookupKV_insertKV_self _ _ _

/-- `get_mut`'s state effect is exactly `extract_deser`. -/
theorem get_mut_state (c : Cache U) (i : U.TId) (k : U.KeyTy i) :
    (c.get_mut i k).2 = c.extract_deser i := rfl

/-- C4: `get::<T>` leaves the cache's internal state — raw partition,
typed partition and tag registry — unchanged, for any number of calls;
in particular the raw entry for `tag(T)` of a freshly-deserialized cache
is still in the raw partition after any number of `get` calls. -/
theorem get_state_neutral (U : ItemUniverse) (c : Cache U) (i : U.TId)
    (k : U.KeyTy i) (n : Nat) (doc : List (String × Blob U)) :
    (fun s : Cache U => (s.getS i k).2)^[n] c = c ∧
    lookupKV ((fun s : Cache U => (s.getS i k).2)^[n]
        (Cache.deserialize U doc)).deser (U.tag i)
      = lookupKV (Cache.deserialize U doc).deser (U.tag i) := by
  constructor
  · exact Function.iterate_fixed rfl n
  · rw [Function.iterate_fixed rfl n]

/-- C10: if the raw partition holds an entry under `tag(T)` whose
contents do not downcast to `T`'s sub-container type, `get::<T>` returns
`none` without consulting the typed partition (whatever it holds). -/
theorem mismatched_raw_entry_shadows_typed (U : ItemUniverse) (c : Cache U)
    (i : U.TId) (k : U.KeyTy i) (b : Blob U)
    (hb : lookupKV c.deser (U.tag i) = some b) (hm : b.1 ≠ i) :
    c.get i k = none := by
  rw [get_of_deser_some k hb, downcast_ne hm]
  rfl

/-- Witness for C10, on a state whose typed partition does hold an item
of `A` at the queried key: the mismatched raw entry still forces
`none`. -/
theorem mismatched_raw_entry_shadows_typed_witness :
    Cache.get shadowCache true 0 = none :=
  mismatched_raw_entry_shadows_typed U2 shadowCache true 0 ⟨false, []⟩ rfl
    (fun h => Bool.noConfusion h)

/-- C7: inserting two items of the same type under the same key leaves
only the second retrievable (last-write-wins). -/
theorem insert_overwrite_last_write_wins (U : ItemUniverse)
    (c c1 c2 : Cache U) (i : U.TId) (x y : U.ItemTy i)
    (hk : U.key i x = U.key i y)
    (h1 : c.insert i x = some c1) (h2 : c1.insert i y = some c2) :
    c2.get i (U.key i x) = some y := by
  rw [hk]
  exact get_key_after_insert h2

/-- Witness for C7: two items of type `A` under key `0`. -/
theorem insert_overwrite_last_write_wins_witness :
    Cache.get ((Cache.insert ((Cache.insert (Cache.new U2) true
        (0, 1)).getD (Cache.new U2)) true (0, 2)).getD (Cache.new U2)) true 0
      = some (0, 2) :=
  insert_overwrite_last_write_wins U2 (Cache.new U2)
    ((Cache.insert (Cache.new U2) true (0, 1)).getD (Cache.new U2))
    ((Cache.insert ((Cache.insert (Cache.new U2) true (0, 1)).getD
        (Cache.new U2)) true (0, 2)).getD (Cache.new U2))
    true (0, 1) (0, 2) rfl rfl rfl

/-- C2 (code bug): promotion triggered by `get_mut` (or `take`) moves
the raw entry into the typed partition but `extract_deser` never records
`tag(T)` in the registry, so after deserializing a document and calling
`get_mut::<A>(0)` the typed partition holds `A`'s sub-container while
the registry has no entry at `identity(A)` — the registry-iff-typed
invariant is violated (and the `unwrap` in `Serialize for Cache`
subsequently panics on this very state). -/
theorem promotion_loses_registry_entry :
    (regCache.get_mut true 0).1 = some (0, 1) ∧
    lookupKV promotedCache.items true = some ⟨true, [(0, (0, 1))]⟩ ∧
    lookupKV promotedCache.keys true = none ∧
    ¬ cacheInvariant promotedCache := by
  refine ⟨rfl, rfl, rfl, fun hinv => ?_⟩
  exact Bool.noConfusion (hinv.2 true)

/-- C3 (code bug): on the reachable state `promotedCache` (deserialize a
one-entry document, then `get_mut::<A>(0)`), serializing the cache
faults — `self.keys.get(key).unwrap()` panics because the registry has
no entry for the promoted type — even though every encode step is
total. -/
theorem serialize_faults_after_promotion :
    Cache.serialize promotedCache = none := rfl

/-- C6 (counterexample): no `DecodeError` is surfaced anywhere.  On
`craftedCache`, whose raw entry under `tag(A)` holds data that does not
decode as `A` (a type/tag mismatch carrying an item of the other type),
`get::<A>(0)` returns plain `none` — the very same answer as on a cache
holding nothing at all, so the failure is silent and indistinguishable
from absence; the operations' result types have no error channel. -/
theorem decode_mismatch_indistinguishable_from_absence :
    craftedCache.get true 0 = none ∧ (Cache.new U2).get true 0 = none ∧
    (craftedCache.get_mut true 0).1 = none ∧ (craftedCache.take true 0).1 = none :=
  ⟨rfl, rfl, rfl, rfl⟩

/-- C6 (amended): when the raw blob under `tag(T)` does not downcast to
`T`'s sub-container, `get`, `get_mut` and `take` all answer with absence
(`none`) rather than a distinct error; the failure is local — the
mutating path only touches the entries at `tag(T)` and `identity(T)`,
leaving every other raw entry, every other typed entry, and the whole
registry unchanged. -/
theorem decode_mismatch_yields_absence_and_is_local (U : ItemUniverse)
    (c : Cache U) (i : U.TId) (k : U.KeyTy i) (b : Blob U)
    (hb : lookupKV c.deser (U.tag i) = some b) (hm : b.1 ≠ i) :
    c.get i k = none ∧
    (c.get_mut i k).1 = none ∧
    (c.take i k).1 = none ∧
    (∀ t, t ≠ U.tag i →
      lookupKV (c.get_mut i k).2.deser t = lookupKV c.deser t) ∧
    (∀ j, j ≠ i →
      lookupKV (c.get_mut i k).2.items j = lookupKV c.items j) ∧
    (c.get_mut i k).2.keys = c.keys := by
  have hi : lookupKV (c.extract_deser i).items i = some b :=
    extract_deser_lookup_items_self_of_some hb
  refine ⟨?_, ?_, ?_, ?_, ?_, ?_⟩
  · rw [get_of_deser_some k hb, downcast_ne hm]
    rfl
  · simp [Cache.get_mut, hi, downcast_ne hm]
  · simp [Cache.take, hi, downcast_ne hm]
  · intro t ht
    rw [get_mut_state]
    exact extract_deser_lookup_deser_ne c i ht
  · intro j hj
    rw [get_mut_state]
    exact extract_deser_lookup_items_ne c hj
  · rw [get_mut_state]
    exact extract_deser_keys c i

/-- Witness for C6 (amended), on the crafted cache whose raw entry under
`tag(A)` holds the other type's sub-container. -/
theorem decode_mismatch_yields_absence_and_is_local_witness :
    craftedCache.get true 0 = none ∧
    (craftedCache.get_mut true 0).1 = none ∧
    (craftedCache.take true 0).1 = none ∧
    (∀ t, t ≠ U2.tag true →
      lookupKV (craftedCache.get_mut true 0).2.deser t
        = lookupKV craftedCache.deser t) ∧
    (∀ j, j ≠ true →
      lookupKV (craftedCache.get_mut true 0).2.items j
        = lookupKV craftedCache.items j) ∧
    (craftedCache.get_mut true 0).2.keys = craftedCache.keys :=
  decode_mismatch_yields_absence_and_is_local U2 craftedCache true 0
    ⟨false, [(0, (0, 9))]⟩ rfl (fun h => Bool.noConfusion h)

/-- C5 (counterexample): `insert::<T>` does have a failure path.  On the
reachable cache `craftedCache` (deserialize a document whose entry under
`tag(A)` was serialized from the other type — a tag collision or a
crafted document), `insert::<A>` promotes the mismatched blob and then
panics on `downcast_mut().unwrap()`; the panic is the `none` result. -/
theorem insert_faults_on_mismatched_raw_entry :
    Cache.insert craftedCache true (0, 5) = none := rfl

/-- `insert` cannot panic when the entry left at `identity(T)` by
promotion, if any, is `T`'s own sub-container. -/
theorem insert_total {c : Cache U} {i : U.TId} (x : U.ItemTy i)
    (h : ∀ b, lookupKV (c.extract_deser i).items i = some b → b.1 = i) :
    ∃ c', c.insert i x = some c' := by
  have hdc : ∃ m, Blob.downcast
      ((lookupKV (c.extract_deser i).items i).getD ⟨i, []⟩) i = some m := by
    cases he : lookupKV (c.extract_deser i).items i with
    | none => exact ⟨[], downcast_mk_self i []⟩
    | some b =>
      have hb := h b he
      exact ⟨hb ▸ b.2, downcast_some_of_fst hb⟩
  obtain ⟨m, hm⟩ := hdc
  unfold Cache.insert
  simp only [extract_deser_keys, hm]
  exact ⟨_, rfl⟩

/-- C5 (amended): `insert::<T>(item)` succeeds — promoting any raw
entry, recording `tag(T)` in the registry, and storing the item at its
own key in `T`'s sub-container (created if absent) — on every cache
state in which the entry left at `identity(T)` after promotion, if any,
is `T`'s own sub-container; in particular on every cache built by
inserts. -/
theorem insert_succeeds_on_well_typed_entry (U : ItemUniverse) (c : Cache U)
    (i : U.TId) (x : U.ItemTy i)
    (h : ∀ b, lookupKV (c.extract_deser i).items i = some b → b.1 = i) :
    ∃ c', c.insert i x = some c' ∧
      c'.get i (U.key i x) = some x ∧
      lookupKV c'.keys i = some (U.tag i) ∧
      lookupKV c'.deser (U.tag i) = none := by
  obtain ⟨c', hc'⟩ := insert_total x h
  exact ⟨c', hc', get_key_after_insert hc', insert_lookup_keys_self hc',
    insert_lookup_deser_self hc'⟩

/-- Witness for C5 (amended): inserting into the empty cache. -/
theorem insert_succeeds_on_well_typed_entry_witness :
    ∃ c', Cache.insert (Cache.new U2) true (0, 5) = some c' ∧
      Cache.get c' true 0 = some (0, 5) ∧
      lookupKV c'.keys true = some "A" ∧
      lookupKV c'.deser "A" = none :=
  insert_succeeds_on_well_typed_entry U2 (Cache.new U2) true (0, 5)
    (fun _ hb => Option.noConfusion hb)

/-- `take` written as one `match`, for rewriting. -/
theorem take_unfold (c : Cache U) (i : U.TId) (k : U.KeyTy i) :
    c.take i k =
      match (lookupKV (c.extract_deser i).items i).bind (fun v => v.downcast i) with
      | none => (none, c.extract_deser i)
      | some m =>
        (lookupKV m k, { c.extract_deser i with
          items := insertKV (c.extract_deser i).items i ⟨i, eraseKV m k⟩ }) := rfl

/-- `insert` written as one `match`, for rewriting. -/
theorem insert_unfold (c : Cache U) (i : U.TId) (x : U.ItemTy i) :
    c.insert i x =
      match Blob.downcast ((lookupKV (c.extract_deser i).items i).getD ⟨i, []⟩) i with
      | none => none
      | some m =>
        some { deser := (c.extract_deser i).deser,
               keys := insertKV c.keys i (U.tag i),
               items := insertKV (c.extract_deser i).items i
                          ⟨i, insertKV m (U.key i x) x⟩ } := by
  unfold Cache.insert
  simp only [extract_deser_keys]

/-- C8: promotion is idempotent — repeating a mutating operation
(`insert` of the same item, `get_mut`, `take` at the same key) leaves
the state it produced unchanged: no double-decode artifacts, no
duplicate entries. -/
theorem mutating_ops_idempotent (U : ItemUniverse) (c c1 : Cache U)
    (i : U.TId) (x : U.ItemTy i) (k : U.KeyTy i)
    (hins : c.insert i x = some c1) :
    c1.insert i x = some c1 ∧
    ((c.get_mut i k).2.get_mut i k).2 = (c.get_mut i k).2 ∧
    ((c.take i k).2.take i k).2 = (c.take i k).2 := by
  refine ⟨?_, ?_, ?_⟩
  · have hd1 := insert_lookup_deser_self hins
    have hx : c1.extract_deser i = c1 := extract_deser_of_lookup_none hd1
    have hk1 := insert_lookup_keys_self hins
    obtain ⟨m, hm⟩ := insert_lookup_items_self hins
    rw [insert_unfold, hx, hm]
    simp only [Option.getD_some, downcast_mk_self, insertKV_insertKV,
      insertKV_of_lookupKV_some hm, insertKV_of_lookupKV_some hk1]
  · simp only [get_mut_state, extract_deser_extract_deser]
  · cases hb : (lookupKV (c.extract_deser i).items i).bind (fun v => v.downcast i) with
    | none =>
      rw [take_unfold c, hb]
      have hx := extract_deser_extract_deser c i
      rw [take_unfold (c.extract_deser i), hx, hb]
    | some m =>
      have hbm : lookupKV (c.extract_deser i).items i = some ⟨i, m⟩ := by
        cases hbl : lookupKV (c.extract_deser i).items i with
        | none => rw [hbl] at hb; exact Option.noConfusion hb
        | some b =>
          rw [hbl] at hb
          rw [downcast_eq_some hb]
      rw [take_unfold c, hb]
      have hds : lookupKV ({ c.extract_deser i with
          items := insertKV (c.extract_deser i).items i
            ⟨i, eraseKV m k⟩ } : Cache U).deser (U.tag i) = none :=
        extract_deser_lookup_deser_self c i
      rw [take_unfold, extract_deser_of_lookup_none hds]
      simp only [lookupKV_insertKV_self, Option.some_bind, downcast_mk_self,
        eraseKV_eraseKV]
      rw [insertKV_insertKV]

/-- Witness for C8, on a freshly-deserialized cache so that the first
mutating call really promotes. -/
theorem mutating_ops_idempotent_witness :
    Cache.insert ((Cache.insert regCache true (0, 2)).getD (Cache.new U2))
        true (0, 2)
      = some ((Cache.insert regCache true (0, 2)).getD (Cache.new U2)) ∧
    ((Cache.get_mut (Cache.get_mut regCache true 0).2 true 0)).2
      = (Cache.get_mut regCache true 0).2 ∧
    ((Cache.take (Cache.take regCache true 0).2 true 0)).2
      = (Cache.take regCache true 0).2 :=
  mutating_ops_idempotent U2 regCache
    ((Cache.insert regCache true (0, 2)).getD (Cache.new U2)) true (0, 2) 0 rfl

/-- C9: after inserting items of one type under two distinct keys,
`take` at the first key returns that item, after which `get` at the
first key answers absence while `get` at the second key still returns
the untouched item. -/
theorem take_removes_only_target_key (U : ItemUniverse) (c c1 c2 : Cache U)
    (i : U.TId) (x y : U.ItemTy i) (hkey : U.key i x ≠ U.key i y)
    (h1 : c.insert i x = some c1) (h2 : c1.insert i y = some c2) :
    (c2.take i (U.key i x)).1 = some x ∧
    (c2.take i (U.key i x)).2.get i (U.key i x) = none ∧
    (c2.take i (U.key i x)).2.get i (U.key i y) = some y := by
  have hd1 := insert_lookup_deser_self h1
  have hx1 : c1.extract_deser i = c1 := extract_deser_of_lookup_none hd1
  obtain ⟨m1, hm1⟩ := insert_lookup_items_self h1
  obtain ⟨m2, hdc2, hc2⟩ := insert_elim h2
  rw [hx1, hm1, Option.getD_some, downcast_mk_self] at hdc2
  injection hdc2 with hdc2
  subst hdc2
  have hd2 := insert_lookup_deser_self h2
  have hx2 : c2.extract_deser i = c2 := extract_deser_of_lookup_none hd2
  have hi2 : lookupKV c2.items i
      = some ⟨i, insertKV (insertKV m1 (U.key i x) x) (U.key i y) y⟩ := by
    rw [hc2, hx1]
    exact lookupKV_insertKV_self _ _ _
  rw [take_unfold, hx2, hi2]
  simp only [Option.some_bind, downcast_mk_self]
  refine ⟨?_, ?_, ?_⟩
  · rw [lookupKV_insertKV_ne _ _ hkey]
    exact lookupKV_insertKV_self _ _ _
  · refine get_typed _ ?_ (lookupKV_insertKV_self _ _ _) |>.trans ?_
    · exact hd2
    · exact lookupKV_eraseKV_self _ _
  · refine get_typed _ ?_ (lookupKV_insertKV_self _ _ _) |>.trans ?_
    · exact hd2
    · rw [lookupKV_eraseKV_ne _ (Ne.symm hkey)]
      exact lookupKV_insertKV_self _ _ _

/-- Witness for C9: two items of type `A` under keys `0` and `1`. -/
theorem take_removes_only_target_key_witness :
    (Cache.take ((Cache.insert ((Cache.insert (Cache.new U2) true
          (0, 1)).getD (Cache.new U2)) true (1, 2)).getD (Cache.new U2))
        true 0).1 = some (0, 1) ∧
    Cache.get (Cache.take ((Cache.insert ((Cache.insert (Cache.new U2) true
          (0, 1)).getD (Cache.new U2)) true (1, 2)).getD (Cache.new U2))
        true 0).2 true 0 = none ∧
    Cache.get (Cache.take ((Cache.insert ((Cache.insert (Cache.new U2) true
          (0, 1)).getD (Cache.new U2)) true (1, 2)).getD (Cache.new U2))
        true 0).2 true 1 = some (1, 2) :=
  take_removes_only_target_key U2 (Cache.new U2)
    ((Cache.insert (Cache.new U2) true (0, 1)).getD (Cache.new U2))
    ((Cache.insert ((Cache.insert (Cache.new U2) true (0, 1)).getD
        (Cache.new U2)) true (1, 2)).getD (Cache.new U2))
    true (0, 1) (1, 2) (by decide) rfl rfl

theorem wf_new (U : ItemUniverse) : WfBuilt (Cache.new U) := by
  refine ⟨rfl, List.nodup_nil, ?_, ?_⟩ <;> intro p hp <;> exact absurd hp (by simp [Cache.new])

/-- `insert` succeeds on every insert-built cache and preserves the
insert-built shape. -/
theorem insert_wf {c : Cache U} (hwf : WfBuilt c) (i : U.TId) (x : U.ItemTy i) :
    ∃ c', c.insert i x = some c' ∧ WfBuilt c' := by
  obtain ⟨hde, hnd, hty, hks⟩ := hwf
  have hdn : lookupKV c.deser (U.tag i) = none := by rw [hde]; rfl
  have hx : c.extract_deser i = c := extract_deser_of_lookup_none hdn
  have htyp : ∀ b, lookupKV (c.extract_deser i).items i = some b → b.1 = i := by
    rw [hx]
    intro b hb
    exact hty (i, b) (lookupKV_mem hb)
  obtain ⟨c', hc'⟩ := insert_total x htyp
  refine ⟨c', hc', ?_⟩
  obtain ⟨m, _, hshape⟩ := insert_elim hc'
  rw [hshape, hx]
  refine ⟨hde, keys_nodup_insertKV hnd, ?_, ?_⟩
  · intro p hp
    rcases mem_insertKV hp with h | h
    · rw [h]
    · exact hty p h
  · intro p hp
    by_cases hpi : p.1 = i
    · rw [hpi]
      exact lookupKV_insertKV_self _ _ _
    · rw [lookupKV_insertKV_ne _ _ hpi]
      rcases mem_insertKV hp with h | h
      · exact absurd (by rw [h]) hpi
      · exact hks p h

/-- Folding a list of inserts over any insert-built cache succeeds and
yields an insert-built cache. -/
theorem foldl_insert_wf (l : List ((i : U.TId) × U.ItemTy i)) :
    ∀ c : Cache U, WfBuilt c →
      ∃ c', l.foldl (fun acc p => acc.bind (fun c0 => c0.insert p.1 p.2))
          (some c) = some c' ∧ WfBuilt c' := by
  induction l with
  | nil => exact fun c hwf => ⟨c, rfl, hwf⟩
  | cons p t ih =>
    intro c hwf
    obtain ⟨c1, hc1, hwf1⟩ := insert_wf hwf p.1 p.2
    obtain ⟨c', hc', hwf'⟩ := ih c1 hwf1
    refine ⟨c', ?_, hwf'⟩
    simpa [hc1] using hc'

theorem insertAll_wf {l : List ((i : U.TId) × U.ItemTy i)} {c' : Cache U}
    (h : insertAll U l = some c') : WfBuilt c' := by
  obtain ⟨c'', hc'', hwf⟩ := foldl_insert_wf l (Cache.new U) (wf_new U)
  unfold insertAll at h
  rw [h] at hc''
  injection hc'' with hc''
  rw [hc'']
  exact hwf

/-- On an insert-built cache, serialization succeeds and the document
lists each typed sub-container under its type's tag. -/
theorem serialize_wf {c : Cache U} (hwf : WfBuilt c) :
    c.serialize = some (c.items.map (fun p => (U.tag p.1, p.2))) := by
  obtain ⟨hde, _, _, hks⟩ := hwf
  unfold Cache.serialize
  rw [mapOption_eq_map (g := fun p => (U.tag p.1, p.2))
      (fun p hp => by rw [hks p hp]; rfl)]
  rw [hde]
  simp

/-- Deserializing the document serialized from an insert-built cache
yields a cache that answers every `get` exactly as the original. -/
theorem wf_roundtrip_get {c' : Cache U} (hwf : WfBuilt c')
    (hinj : Function.Injective U.tag) (j : U.TId) (k : U.KeyTy j) :
    (Cache.deserialize U (c'.items.map (fun p => (U.tag p.1, p.2)))).get j k
      = c'.get j k := by
  obtain ⟨hde, hnd, hty, hks⟩ := hwf
  have hnodup : ((c'.items.map (fun p => (U.tag p.1, p.2))).map Prod.fst).Nodup := by
    rw [List.map_map]
    have he : (Prod.fst ∘ fun p : U.TId × Blob U => (U.tag p.1, p.2))
        = U.tag ∘ Prod.fst := rfl
    rw [he, ← List.map_map]
    exact hnd.map hinj
  have hlk : lookupKV (Cache.deserialize U
        (c'.items.map (fun p => (U.tag p.1, p.2)))).deser (U.tag j)
      = lookupKV c'.items j := by
    show lookupKV ((c'.items.map (fun p => (U.tag p.1, p.2))).foldl
        (fun m p => insertKV m p.1 p.2) []) (U.tag j) = _
    rw [lookupKV_foldl_insertKV _ (U.tag j) hnodup []]
    rw [lookupKV_map_fst_inj U.tag hinj]
    cases lookupKV c'.items j <;> rfl
  have hdn : lookupKV c'.deser (U.tag j) = none := by rw [hde]; rfl
  cases hj : lookupKV c'.items j with
  | none =>
    rw [get_of_deser_none k (hlk.trans hj), get_of_deser_none k hdn, hj]
    have hit : lookupKV (Cache.deserialize U
        (c'.items.map (fun p => (U.tag p.1, p.2)))).items j = none := rfl
    rw [hit]
  | some b =>
    rw [get_of_deser_some k (hlk.trans hj), get_of_deser_none k hdn, hj]
    rfl

/-- C1: for a cache built by any sequence of inserts of items of several
types (tags being unique per type, the crate's stated caller invariant),
deserializing the serialized document yields a cache on which every
`get::<T>(k)` answers exactly as the original cache did. -/
theorem roundtrip_preserves_get (U : ItemUniverse)
    (hinj : Function.Injective U.tag)
    (l : List ((i : U.TId) × U.ItemTy i)) (c' : Cache U)
    (doc : List (String × Blob U))
    (hbuild : insertAll U l = some c') (hser : c'.serialize = some doc)
    (i : U.TId) (k : U.KeyTy i) :
    (Cache.deserialize U doc).get i k = c'.get i k := by
  have hwf : WfBuilt c' := insertAll_wf hbuild
  rw [serialize_wf hwf] at hser
  injection hser with hser
  rw [← hser]
  exact wf_roundtrip_get hwf hinj i k

/-- Witness for C1: a two-type insert sequence, serialized and
deserialized; `get::<A>(0)` agrees before and after the round trip. -/
theorem roundtrip_preserves_get_witness :
    (Cache.deserialize U2 ((Cache.serialize ((insertAll U2
          [⟨true, (0, 1)⟩, ⟨false, (2, 3)⟩]).getD (Cache.new U2))).getD [])).get
        true 0
      = ((insertAll U2 [⟨true, (0, 1)⟩, ⟨false, (2, 3)⟩]).getD
          (Cache.new U2)).get true 0 :=
  roundtrip_preserves_get U2 (by decide)
    [⟨true, (0, 1)⟩, ⟨false, (2, 3)⟩]
    ((insertAll U2 [⟨true, (0, 1)⟩, ⟨false, (2, 3)⟩]).getD (Cache.new U2))
    ((Cache.serialize ((insertAll U2 [⟨true, (0, 1)⟩, ⟨false, (2, 3)⟩]).getD
        (Cache.new U2))).getD [])
    rfl rfl true 0

end Mimir
